import Mathlib

/-!
Verification development for the microscope image-quality evaluation core:
patch tiling (src/quality/data_provider.py), and the aggregation / certainty /
reconstruction / result-store engine exercised by src/quality/miq_eval_test.py.

Numeric arrays are modelled over ℚ where the computation is rational and over ℝ
where it involves logarithms (the entropy-based certainty).  Images are
single-channel 2-D arrays modelled as a shape plus a pixel function; an RGB
image carries a triple per pixel.
-/

namespace Miq

/-- A 2-D array of pixels of type `α` with shape `[H, W]` (row, column). -/
structure ImageOf (α : Type) where
  H : ℕ
  W : ℕ
  pix : ℕ → ℕ → α

/-- Single-channel numeric image, as consumed by the core. -/
abbrev Image := ImageOf ℚ

/-- Three-channel (RGB) image. -/
abbrev RgbImage := ImageOf (ℚ × ℚ × ℚ)

/-- Error taxonomy of the spec (section 7). -/
inductive MiqError
  | dimensionError
  | labelMismatch
  | configurationError
  deriving DecidableEq, Repr

/-!
## Tiling Extractor (from source: data_provider.get_image_tiles_tensor)

The source (Python 2) loops `for j in range(image_height / patch_width)` and
`for i in range(image_width / patch_width)` — integer floor division, with no
divisibility check — and extracts a glimpse of size `patch_width × patch_width`
centered at `((j + 0.5) * patch_width, (i + 0.5) * patch_width)`, i.e. the
axis-aligned block whose top-left corner is `(j * patch_width, i * patch_width)`.
Tiles are accumulated row-major (outer loop `j`, inner loop `i`), and the label
and image path are replicated once per tile.
-/

/-- Embedding of `data_provider.get_image_tiles_tensor`.  Returns the tiles
(each a `patch_width × patch_width` image), the replicated labels and the
replicated image paths.  No error is raised for non-divisible shapes: the
ranges use floor division exactly as the Python 2 source does. -/
def get_image_tiles_tensor (image : Image) (label : List ℚ) (image_path : String)
    (patch_width : ℕ) : List Image × List (List ℚ) × List String :=
  let tiles := (List.range (image.H / patch_width)).flatMap (fun j =>
    (List.range (image.W / patch_width)).map (fun i =>
      ⟨patch_width, patch_width, fun r c =>
        image.pix (j * patch_width + r) (i * patch_width + c)⟩))
  (tiles, List.replicate tiles.length label, List.replicate tiles.length image_path)

/-- Modelled from the spec (section 4.1): the Tiling Extractor contract as the
spec words it — it "fails with a `DimensionError` if `H` or `W` is not an exact
multiple of `p`", otherwise produces the `(H/p)*(W/p)` row-major tiles.  This
definition follows the spec's words; the source function
`get_image_tiles_tensor` above follows the code, and the two are compared in
the theorems below. -/
def spec_tiling_extractor (image : Image) (patch_width : ℕ) :
    Except MiqError (List Image) :=
  if patch_width = 0 then .error .dimensionError
  else if image.H % patch_width ≠ 0 ∨ image.W % patch_width ≠ 0 then
    .error .dimensionError
  else .ok ((List.range (image.H / patch_width)).flatMap (fun j =>
    (List.range (image.W / patch_width)).map (fun i =>
      ⟨patch_width, patch_width, fun r c =>
        image.pix (j * patch_width + r) (i * patch_width + c)⟩)))

/-!
## Reconstructor (miq_eval._patches_to_image is not under src/)
-/

/-- Modelled from the spec (section 4.4): `miq_eval._patches_to_image` is not
under src/.  "`reconstruct(patches, grid_shape)`: inverse of the Tiling
Extractor; places patch `k` at row-major position `k` using the same
`(H/p, W/p)` grid math; fails with `DimensionError` if `grid_shape` is not
evenly divisible by the patch width inferred from the patches, or if the patch
count does not equal `(H/p)*(W/p)`." -/
def patches_to_image (patches : List Image) (shape : ℕ × ℕ) :
    Except MiqError Image :=
  let p := ((patches.head?).map (fun t => t.H)).getD 0
  if p = 0 then .error .dimensionError
  else if shape.1 % p ≠ 0 ∨ shape.2 % p ≠ 0 then .error .dimensionError
  else if patches.length ≠ (shape.1 / p) * (shape.2 / p) then
    .error .dimensionError
  else .ok ⟨shape.1, shape.2, fun r c =>
    ((patches.getD ((r / p) * (shape.2 / p) + c / p)
      ⟨p, p, fun _ _ => 0⟩).pix) (r % p) (c % p)⟩

/-!
### List indexing lemmas for the row-major tile layout
-/

/-- Length of the row-major double loop. -/
theorem length_flatMap_range_map {α : Type} (m n : ℕ) (f : ℕ → ℕ → α) :
    ((List.range m).flatMap (fun j => (List.range n).map (f j))).length = m * n := by
  induction m with
  | zero => simp
  | succ k ih =>
      rw [List.range_succ, List.flatMap_append, List.length_append, ih]
      simp [Nat.succ_mul]

/-- Element of the row-major double loop at index `j * n + i`. -/
theorem getD_flatMap_range_map {α : Type} (m n : ℕ) (f : ℕ → ℕ → α) (j i : ℕ)
    (hj : j < m) (hi : i < n) (d : α) :
    ((List.range m).flatMap (fun j => (List.range n).map (f j))).getD (j * n + i) d
      = f j i := by
  induction m with
  | zero => omega
  | succ k ih =>
      rw [List.range_succ, List.flatMap_append]
      rcases Nat.lt_succ_iff_lt_or_eq.mp hj with h | h
      · rw [List.getD_append]
        · exact ih h
        · calc j * n + i < j * n + n := by omega
            _ ≤ k * n := by
                have : j + 1 ≤ k := h
                calc j * n + n = (j + 1) * n := by ring
                  _ ≤ k * n := Nat.mul_le_mul_right n this
            _ = (((List.range k).flatMap (fun j => (List.range n).map (f j))).length) := by
                rw [length_flatMap_range_map]
      · subst h
        rw [List.getD_append_right]
        · rw [length_flatMap_range_map]
          have hidx : j * n + i - j * n = i := by omega
          rw [hidx]
          simp [List.getD, List.getElem?_map, List.getElem?_range hi]
        · rw [length_flatMap_range_map]
          omega

/-- Head of the row-major double loop. -/
theorem head?_flatMap_range_map {α : Type} (m n : ℕ) (f : ℕ → ℕ → α)
    (hm : 0 < m) (hn : 0 < n) (d : α) :
    ((List.range m).flatMap (fun j => (List.range n).map (f j))).head? = some (f 0 0) := by
  set l := (List.range m).flatMap (fun j => (List.range n).map (f j)) with hl
  have hlen : 0 < l.length := by
    rw [hl, length_flatMap_range_map]; exact Nat.mul_pos hm hn
  have h0 : l.getD 0 d = f 0 0 := by
    rw [hl]
    have h := getD_flatMap_range_map m n f 0 0 hm hn d
    simpa using h
  rw [List.head?_eq_getElem?, List.getElem?_eq_getElem hlen]
  rw [List.getD_eq_getElem?_getD, List.getElem?_eq_getElem hlen] at h0
  simpa using congrArg some h0

/-- C4 counterexample input: a 30 × 28 image with distinguishable pixel values. -/
def img30x28 : Image := ⟨30, 28, fun r c => (r * 100 + c : ℚ)⟩

/-- C4: the claim says `get_image_tiles_tensor` fails with a `DimensionError`
when `H` (here 30) is not a multiple of the patch width (28).  The source
function raises nothing: it returns a normal one-tile result, while the
spec-side contract demands an error at the same input. -/
theorem C4_counterexample :
    ((get_image_tiles_tensor img30x28 [1] "img" 28).1).length = 1
      ∧ spec_tiling_extractor img30x28 28 = .error .dimensionError := by
  constructor
  · show ((List.range (30 / 28)).flatMap (fun j => (List.range (28 / 28)).map
      (fun i => (⟨28, 28, fun r c =>
        img30x28.pix (j * 28 + r) (i * 28 + c)⟩ : Image)))).length = 1
    rw [length_flatMap_range_map]
  · norm_num [spec_tiling_extractor, img30x28]

/-- C4 amended: `get_image_tiles_tensor` performs no divisibility check.  For
every image it returns `⌊H/p⌋ * ⌊W/p⌋` tiles (never an error), and at
`H = 30, W = 28, p = 28` it returns exactly one tile — a copy of the top-left
`28 × 28` block — silently truncating the residual two rows. -/
theorem C4_truncation :
    (∀ (image : Image) (label : List ℚ) (path : String) (p : ℕ),
      ((get_image_tiles_tensor image label path p).1).length
        = (image.H / p) * (image.W / p))
    ∧ ((get_image_tiles_tensor img30x28 [1] "img" 28).1).length = 1
    ∧ (((get_image_tiles_tensor img30x28 [1] "img" 28).1).getD 0
        ⟨0, 0, fun _ _ => 0⟩).H = 28
    ∧ (((get_image_tiles_tensor img30x28 [1] "img" 28).1).getD 0
        ⟨0, 0, fun _ _ => 0⟩).pix 27 27 = img30x28.pix 27 27 := by
  refine ⟨fun image label path p => ?_, ?_, ?_, ?_⟩
  · show ((List.range (image.H / p)).flatMap (fun j => (List.range (image.W / p)).map
      (fun i => (⟨p, p, fun r c =>
        image.pix (j * p + r) (i * p + c)⟩ : Image)))).length
        = (image.H / p) * (image.W / p)
    rw [length_flatMap_range_map]
  · show ((List.range (30 / 28)).flatMap (fun j => (List.range (28 / 28)).map
      (fun i => (⟨28, 28, fun r c =>
        img30x28.pix (j * 28 + r) (i * 28 + c)⟩ : Image)))).length = 1
    rw [length_flatMap_range_map]
  · have h := getD_flatMap_range_map (30 / 28) (28 / 28)
      (fun j i => (⟨28, 28, fun r c =>
        img30x28.pix (j * 28 + r) (i * 28 + c)⟩ : Image)) 0 0
      (by norm_num) (by norm_num) ⟨0, 0, fun _ _ => 0⟩
    show (((List.range (30 / 28)).flatMap (fun j => (List.range (28 / 28)).map
      (fun i => (⟨28, 28, fun r c =>
        img30x28.pix (j * 28 + r) (i * 28 + c)⟩ : Image)))).getD 0
        ⟨0, 0, fun _ _ => 0⟩).H = 28
    rw [show (0 : ℕ) = 0 * (28 / 28) + 0 by norm_num, h]
  · have h := getD_flatMap_range_map (30 / 28) (28 / 28)
      (fun j i => (⟨28, 28, fun r c =>
        img30x28.pix (j * 28 + r) (i * 28 + c)⟩ : Image)) 0 0
      (by norm_num) (by norm_num) ⟨0, 0, fun _ _ => 0⟩
    show (((List.range (30 / 28)).flatMap (fun j => (List.range (28 / 28)).map
      (fun i => (⟨28, 28, fun r c =>
        img30x28.pix (j * 28 + r) (i * 28 + c)⟩ : Image)))).getD 0
        ⟨0, 0, fun _ _ => 0⟩).pix 27 27 = img30x28.pix 27 27
    rw [show (0 : ℕ) = 0 * (28 / 28) + 0 by norm_num, h]

/-- C5: tiling then reconstructing is the identity on the image, whenever the
patch width `p` divides both `H` and `W` (the image being nonempty). -/
theorem C5_tile_reconstruct_roundtrip (image : Image) (label : List ℚ)
    (path : String) (p : ℕ) (hp : 0 < p) (hH : p ∣ image.H) (hW : p ∣ image.W)
    (hH0 : 0 < image.H) (hW0 : 0 < image.W) :
    ∃ img', patches_to_image (get_image_tiles_tensor image label path p).1
        (image.H, image.W) = .ok img'
      ∧ img'.H = image.H ∧ img'.W = image.W
      ∧ ∀ r < image.H, ∀ c < image.W, img'.pix r c = image.pix r c := by
  set f : ℕ → ℕ → Image := fun j i =>
    ⟨p, p, fun r c => image.pix (j * p + r) (i * p + c)⟩ with hf
  have htiles : (get_image_tiles_tensor image label path p).1
      = (List.range (image.H / p)).flatMap
          (fun j => (List.range (image.W / p)).map (f j)) := rfl
  have hm : 0 < image.H / p := Nat.div_pos (Nat.le_of_dvd hH0 hH) hp
  have hn : 0 < image.W / p := Nat.div_pos (Nat.le_of_dvd hW0 hW) hp
  have hhead : ((get_image_tiles_tensor image label path p).1).head?
      = some (f 0 0) := by
    rw [htiles]
    exact head?_flatMap_range_map _ _ f hm hn ⟨0, 0, fun _ _ => 0⟩
  have hlen : ((get_image_tiles_tensor image label path p).1).length
      = (image.H / p) * (image.W / p) := by
    rw [htiles, length_flatMap_range_map]
  have hmodH : image.H % p = 0 := by
    obtain ⟨k, hk⟩ := hH; rw [hk]; exact Nat.mul_mod_right p k
  have hmodW : image.W % p = 0 := by
    obtain ⟨k, hk⟩ := hW; rw [hk]; exact Nat.mul_mod_right p k
  refine ⟨⟨image.H, image.W, fun r c =>
    (((get_image_tiles_tensor image label path p).1).getD
      ((r / p) * (image.W / p) + c / p) ⟨p, p, fun _ _ => 0⟩).pix (r % p) (c % p)⟩,
    ?_, rfl, rfl, ?_⟩
  · unfold patches_to_image
    rw [hhead]
    have hfH : (f 0 0).H = p := rfl
    simp only [Option.map_some', Option.getD_some, hfH]
    rw [if_neg (by omega : ¬ p = 0),
      if_neg (by simp [hmodH, hmodW] : ¬ (image.H % p ≠ 0 ∨ image.W % p ≠ 0)),
      if_neg (by rw [hlen]; exact fun h => h rfl :
        ¬ ((get_image_tiles_tensor image label path p).1.length
          ≠ (image.H / p) * (image.W / p)))]
  · intro r hr c hc
    have hj : r / p < image.H / p := Nat.div_lt_div_of_lt_of_dvd hH hr
    have hi : c / p < image.W / p := Nat.div_lt_div_of_lt_of_dvd hW hc
    have hgd : ((get_image_tiles_tensor image label path p).1).getD
        ((r / p) * (image.W / p) + c / p) ⟨p, p, fun _ _ => 0⟩ = f (r / p) (c / p) := by
      rw [htiles]
      exact getD_flatMap_range_map _ _ f (r / p) (c / p) hj hi _
    show ((((get_image_tiles_tensor image label path p).1).getD
        ((r / p) * (image.W / p) + c / p) ⟨p, p, fun _ _ => 0⟩).pix) (r % p) (c % p)
      = image.pix r c
    rw [hgd]
    show image.pix ((r / p) * p + r % p) ((c / p) * p + c % p) = image.pix r c
    have h1 : (r / p) * p + r % p = r := by
      rw [Nat.mul_comm]; exact Nat.div_add_mod r p
    have h2 : (c / p) * p + c % p = c := by
      rw [Nat.mul_comm]; exact Nat.div_add_mod c p
    rw [h1, h2]

/-- C5 witness: a concrete 4 × 2 image tiled with `p = 2` and reconstructed. -/
theorem C5_tile_reconstruct_roundtrip_witness :
    0 < 2 ∧ 2 ∣ 4 ∧ 2 ∣ 2 ∧ 0 < 4 ∧ 0 < 2
    ∧ ∃ img', patches_to_image
        (get_image_tiles_tensor ⟨4, 2, fun r c => (r * 10 + c : ℚ)⟩ [1] "w" 2).1
          (4, 2) = .ok img'
      ∧ img'.H = 4 ∧ img'.W = 2
      ∧ ∀ r < 4, ∀ c < 2, img'.pix r c
          = (⟨4, 2, fun r c => (r * 10 + c : ℚ)⟩ : Image).pix r c :=
  ⟨by norm_num, by norm_num, by norm_num, by norm_num, by norm_num,
    C5_tile_reconstruct_roundtrip ⟨4, 2, fun r c => (r * 10 + c : ℚ)⟩ [1] "w" 2
      (by norm_num) (by norm_num) (by norm_num) (by norm_num) (by norm_num)⟩

/-!
## Aggregator (miq_eval is not under src/)

`miq_eval.get_certainty` and `miq_eval.aggregate_prediction_from_probabilities`
are not under src/; they are modelled from the spec (section 4.3) with the
behaviour pinned by the golden values of src/quality/miq_eval_test.py:

* `testGetCertainty`: certainty of `[0.5, 0.5]` is exactly `0.0`, of `[1.0, 0.0]`
  exactly `1.0`;
* `testAggregatePredictionFromProbabilities`: certainty of `[0, 0.2, 0.8]` is
  `0.545` to three decimals, and the aggregated vector for inputs
  `[[1/3,1/3,1/3], [0,0.2,0.8]]` is `[0, 0.2, 0.8]` — a certainty-weighted
  average, not the plain arithmetic mean.

The unique `[0,1]`-valued certainty consistent with all of these golden values
is the normalized-entropy certainty `1 - H(p)/log C` (0 at the uniform
distribution, 1 at a one-hot vector), which is what is modelled here.  The
closed-form rescale `2*(avg(q) - 1/C)/(1 - 1/C)` written in spec section 4.3
is inconsistent with the spec's own section 8 reference values and with the
src test file, so it is not used.
-/

/-- Modelled from the spec (section 4.3 preprocessing): "each input vector is
normalized to sum to 1; if a vector sums to 0, treat every class as equally
likely (uniform distribution over `C` classes) rather than dividing by zero." -/
noncomputable def normalizeVec (v : List ℝ) : List ℝ :=
  if 0 < v.sum then v.map (· / v.sum)
  else List.replicate v.length ((1 : ℝ) / v.length)

/-- Modelled from the spec: `miq_eval.get_certainty`, the `[0,1]` certainty of
one probability vector — the normalized-entropy certainty `1 - H(p)/log C`
(see the section comment above), with the zero-sum input guarded to 0. -/
noncomputable def get_certainty (v : List ℝ) : ℝ :=
  if 0 < v.sum then
    1 - (-(((v.map (· / v.sum)).map (fun p => p * Real.log p)).sum))
      / Real.log v.length
  else 0

/-- First index of the running maximum (strict improvement only), as
`np.argmax` computes it: ties keep the earlier index. -/
def argmaxAux {α : Type} [LinearOrder α] : List α → ℕ → α → ℕ → ℕ
  | [], bi, _, _ => bi
  | x :: xs, bi, bv, i => if bv < x then argmaxAux xs i x (i + 1)
                          else argmaxAux xs bi bv (i + 1)

/-- `np.argmax`: index of the first occurrence of the maximum (0 on `[]`). -/
def argmaxList {α : Type} [LinearOrder α] : List α → ℕ
  | [] => 0
  | x :: xs => argmaxAux xs 0 x 1

/-- `np.max` over a list, with a default for the empty list. -/
def listMaxD {α : Type} [LinearOrder α] (d : α) : List α → α
  | [] => d
  | x :: xs => xs.foldl max x

/-- `np.average(rows, axis=0, weights=w)`: column `j` is
`(Σ_i w_i * rows_i_j) / (Σ_i w_i)`. -/
noncomputable def weightedColumnAverage (C : ℕ) (rows : List (List ℝ))
    (w : List ℝ) : List ℝ :=
  (List.range C).map (fun j =>
    ((List.zipWith (fun wi row => wi * row.getD j 0) w rows).sum) / w.sum)

/-- `np.prod(rows, axis=0)`: column-wise product. -/
def columnProduct (C : ℕ) (rows : List (List ℝ)) : List ℝ :=
  (List.range C).map (fun j => (rows.map (fun row => row.getD j 0)).prod)

/-- Selectable combination method of the Aggregator (spec section 4.3);
the default is the (weighted) mean. -/
inductive AggMethod
  | average
  | product
  deriving DecidableEq, Repr

/-- The four certainty metrics of one aggregation (spec CertaintyReport). -/
structure CertaintyDict where
  mean : ℝ
  max : ℝ
  aggregate : ℝ
  weighted : ℝ

/-- The Aggregator's result (spec AggregateResult). -/
structure WholeImagePrediction where
  predicted_class : ℕ
  certainties : CertaintyDict
  probabilities : List ℝ

/-- Modelled from the spec:
`miq_eval.aggregate_prediction_from_probabilities`, which is not under src/.
Each input vector is normalized (uniform fallback for zero-sum vectors); the
per-vector certainties serve as weights; under the default `average` method
the combined vector is the certainty-weighted average of the normalized
vectors (all-one weights when every certainty is 0 -- the guarded fallback),
under `product` the column-wise product; the combined vector is re-normalized,
the predicted class is its arg-max (first index on ties), and the four
metrics are: mean and max of the per-vector certainties, the certainty of the
combined vector, and the certainty-weighted average of the certainties
(0 when all weights are 0). -/
noncomputable def aggregate_prediction_from_probabilities
    (probabilities : List (List ℝ)) (method : AggMethod := AggMethod.average) :
    WholeImagePrediction :=
  let C := (probabilities.head?.getD []).length
  let normalized := probabilities.map normalizeVec
  let weights := normalized.map get_certainty
  let combined :=
    match method with
    | AggMethod.average =>
        let w := if weights.sum = 0
                 then List.replicate weights.length (1 : ℝ) else weights
        weightedColumnAverage C normalized w
    | AggMethod.product => columnProduct C normalized
  let probabilities_aggregated := normalizeVec combined
  { predicted_class := argmaxList probabilities_aggregated
    certainties :=
      { mean := weights.sum / weights.length
        max := listMaxD 0 weights
        aggregate := get_certainty probabilities_aggregated
        weighted := if weights.sum = 0 then 0
                    else ((weights.map (fun x => x * x)).sum) / weights.sum }
    probabilities := probabilities_aggregated }

/-- Modelled from the spec (sections 4.3 and 7):
`miq_eval.get_aggregated_prediction`, not under src/ — aggregates the patch
probabilities of one image together with the patches' ground-truth labels;
"Fails with `LabelMismatchError` if the caller supplies probability vectors
whose associated labels are not all identical (surfaced, not silently
resolved)." -/
noncomputable def get_aggregated_prediction (probabilities : List (List ℝ))
    (labels : List ℤ) : Except MiqError (ℕ × ℤ) :=
  if labels.any (fun l => decide (l ≠ labels.getD 0 0)) then
    .error .labelMismatch
  else
    .ok ((aggregate_prediction_from_probabilities probabilities).predicted_class,
      labels.getD 0 0)

/-- C7: aggregation of per-patch predictions surfaces a `LabelMismatchError`
whenever the associated labels are not all identical. -/
theorem C7_label_mismatch (probabilities : List (List ℝ)) (labels : List ℤ)
    (a b : ℤ) (ha : a ∈ labels) (hb : b ∈ labels) (hab : a ≠ b) :
    get_aggregated_prediction probabilities labels = .error .labelMismatch := by
  unfold get_aggregated_prediction
  rw [if_pos]
  rcases eq_or_ne a (labels.getD 0 0) with h | h
  · refine List.any_eq_true.mpr ⟨b, hb, ?_⟩
    simp only [decide_eq_true_eq]
    rw [← h]
    exact hab.symm
  · exact List.any_eq_true.mpr ⟨a, ha, by simp only [decide_eq_true_eq]; exact h⟩

/-- C7 witness: the test's concrete input, labels `[0,0,0,1]`. -/
theorem C7_label_mismatch_witness :
    (0 : ℤ) ∈ [0, 0, 0, 1] ∧ (1 : ℤ) ∈ [0, 0, 0, 1] ∧ (0 : ℤ) ≠ 1
      ∧ get_aggregated_prediction [[0, 1], [0, 0.1], [0, 0.1], [0, 1]]
          [0, 0, 0, 1] = .error .labelMismatch :=
  ⟨by simp, by simp, by decide,
    C7_label_mismatch [[0, 1], [0, 0.1], [0, 0.1], [0, 1]] [0, 0, 0, 1] 0 1
      (by simp) (by simp) (by decide)⟩

/-!
### Numeric bounds on `Real.log 3` and `Real.log 5`

Derived from the Mathlib nine-digit bounds on `Real.log 2` together with
`log x ≤ x - 1` and `1 - x⁻¹ ≤ log x` applied to `3^12 / 2^19 = 531441/524288`
and `2^7 / 5^3 = 128/125`, both close to 1.
-/

theorem log3_eq : Real.log 3 =
    (19 * Real.log 2 + Real.log ((531441 : ℝ) / 524288)) / 12 := by
  have h : Real.log ((531441 : ℝ) / 524288) = 12 * Real.log 3 - 19 * Real.log 2 := by
    rw [show ((531441 : ℝ)) = 3 ^ (12 : ℕ) by norm_num,
      show ((524288 : ℝ)) = 2 ^ (19 : ℕ) by norm_num,
      Real.log_div (by positivity) (by positivity), Real.log_pow, Real.log_pow]
    push_cast
    ring
  rw [h]
  ring

theorem log5_eq : Real.log 5 =
    (7 * Real.log 2 - Real.log ((128 : ℝ) / 125)) / 3 := by
  have h : Real.log ((128 : ℝ) / 125) = 7 * Real.log 2 - 3 * Real.log 5 := by
    rw [show ((128 : ℝ)) = 2 ^ (7 : ℕ) by norm_num,
      show ((125 : ℝ)) = 5 ^ (3 : ℕ) by norm_num,
      Real.log_div (by positivity) (by positivity), Real.log_pow, Real.log_pow]
    push_cast
    ring
  rw [h]
  ring

theorem log3_gt : (1.0986 : ℝ) < Real.log 3 := by
  have h2 := Real.log_two_gt_d9
  have hlo : (1 : ℝ) - ((531441 : ℝ) / 524288)⁻¹ ≤ Real.log ((531441 : ℝ) / 524288) :=
    Real.one_sub_inv_le_log_of_pos (by norm_num)
  rw [log3_eq]
  norm_num at hlo ⊢
  nlinarith

theorem log3_lt : Real.log 3 < (1.09862 : ℝ) := by
  have h2 := Real.log_two_lt_d9
  have hhi : Real.log ((531441 : ℝ) / 524288) ≤ (531441 : ℝ) / 524288 - 1 :=
    Real.log_le_sub_one_of_pos (by norm_num)
  rw [log3_eq]
  norm_num at hhi ⊢
  nlinarith

theorem log5_gt : (1.60934 : ℝ) < Real.log 5 := by
  have h2 := Real.log_two_gt_d9
  have hhi : Real.log ((128 : ℝ) / 125) ≤ (128 : ℝ) / 125 - 1 :=
    Real.log_le_sub_one_of_pos (by norm_num)
  rw [log5_eq]
  norm_num at hhi ⊢
  nlinarith

theorem log5_lt : Real.log 5 < (1.60954 : ℝ) := by
  have h2 := Real.log_two_lt_d9
  have hlo : (1 : ℝ) - ((128 : ℝ) / 125)⁻¹ ≤ Real.log ((128 : ℝ) / 125) :=
    Real.one_sub_inv_le_log_of_pos (by norm_num)
  rw [log5_eq]
  norm_num at hlo ⊢
  nlinarith

/-!
### Evaluating the certainty on the concrete golden inputs
-/

theorem normalizeVec_of_sum_one (v : List ℝ) (h : v.sum = 1) :
    normalizeVec v = v := by
  unfold normalizeVec
  rw [h, if_pos one_pos]
  simp

theorem get_certainty_uniform3 : get_certainty [1/3, 1/3, 1/3] = 0 := by
  have hsum : ([1/3, 1/3, 1/3] : List ℝ).sum = 1 := by norm_num
  unfold get_certainty
  rw [hsum, if_pos one_pos]
  simp only [List.map_cons, List.map_nil, List.sum_cons, List.sum_nil, div_one,
    List.length_cons, List.length_nil]
  rw [show (1 : ℝ) / 3 = (3 : ℝ)⁻¹ by norm_num, Real.log_inv]
  have h3 : Real.log 3 ≠ 0 := by nlinarith [log3_gt]
  have hcast : ((0 + 1 + 1 + 1 : ℕ) : ℝ) = 3 := by norm_num
  rw [hcast]
  field_simp
  ring

theorem get_certainty_golden :
    get_certainty [0, 0.2, 0.8]
      = 1 - (Real.log 5 - 8 / 5 * Real.log 2) / Real.log 3 := by
  have hsum : ([0, 0.2, 0.8] : List ℝ).sum = 1 := by norm_num
  unfold get_certainty
  rw [hsum, if_pos one_pos]
  simp only [List.map_cons, List.map_nil, List.sum_cons, List.sum_nil, div_one,
    List.length_cons, List.length_nil]
  rw [show (0.2 : ℝ) = (5 : ℝ)⁻¹ by norm_num, Real.log_inv,
    show (0.8 : ℝ) = (4 : ℝ) / 5 by norm_num,
    Real.log_div (by norm_num) (by norm_num),
    show (4 : ℝ) = 2 ^ (2 : ℕ) by norm_num, Real.log_pow]
  have hcast : ((0 + 1 + 1 + 1 : ℕ) : ℝ) = 3 := by norm_num
  rw [hcast]
  push_cast
  ring

theorem golden_cert_bounds :
    (0.544 : ℝ) < get_certainty [0, 0.2, 0.8]
      ∧ get_certainty [0, 0.2, 0.8] < 0.5447 := by
  rw [get_certainty_golden]
  have h2lo := Real.log_two_gt_d9
  have h2hi := Real.log_two_lt_d9
  have h3lo := log3_gt
  have h3hi := log3_lt
  have h5lo := log5_gt
  have h5hi := log5_lt
  have h3pos : (0 : ℝ) < Real.log 3 := by linarith
  constructor
  · have key : (Real.log 5 - 8 / 5 * Real.log 2) / Real.log 3 < 0.456 := by
      rw [div_lt_iff₀ h3pos]
      nlinarith
    linarith
  · have key : (0.4553 : ℝ) < (Real.log 5 - 8 / 5 * Real.log 2) / Real.log 3 := by
      rw [lt_div_iff₀ h3pos]
      nlinarith
    linarith

theorem argmax_golden : argmaxList ([0, 0.2, 0.8] : List ℝ) = 2 := by
  show argmaxAux [(0.2 : ℝ), 0.8] 0 0 1 = 2
  simp only [argmaxAux]
  rw [if_pos (by norm_num : (0 : ℝ) < 0.2), if_pos (by norm_num : (0.2 : ℝ) < 0.8)]

theorem wca_golden (c : ℝ) (hc : c ≠ 0) :
    weightedColumnAverage 3 [[1/3, 1/3, 1/3], [0, 0.2, 0.8]] [0, c]
      = [0, 0.2, 0.8] := by
  unfold weightedColumnAverage
  rw [show List.range 3 = [0, 1, 2] from rfl]
  simp only [List.map_cons, List.map_nil, List.zipWith_cons_cons,
    List.zipWith_nil_right, List.sum_cons, List.sum_nil, List.getD_cons_zero,
    List.getD_cons_succ]
  norm_num
  constructor
  · field_simp
    ring
  · field_simp
    ring

/-- C1: for input `[[1/3,1/3,1/3], [0,0.2,0.8]]` under the default (MEAN)
combination method the Aggregator returns predicted class 2, an averaged
probability vector within `1e-3` of `[0, 0.2, 0.8]`, and certainty metrics
within `1e-3` of `mean = 0.272`, `max = 0.545`, `aggregate = 0.545`,
`weighted = 0.545`. -/
theorem C1_default_mean_golden_values :
    (aggregate_prediction_from_probabilities
        [[1/3, 1/3, 1/3], [0, 0.2, 0.8]]).predicted_class = 2
    ∧ |(aggregate_prediction_from_probabilities
        [[1/3, 1/3, 1/3], [0, 0.2, 0.8]]).probabilities.getD 0 0 - 0| < 1e-3
    ∧ |(aggregate_prediction_from_probabilities
        [[1/3, 1/3, 1/3], [0, 0.2, 0.8]]).probabilities.getD 1 0 - 0.2| < 1e-3
    ∧ |(aggregate_prediction_from_probabilities
        [[1/3, 1/3, 1/3], [0, 0.2, 0.8]]).probabilities.getD 2 0 - 0.8| < 1e-3
    ∧ |(aggregate_prediction_from_probabilities
        [[1/3, 1/3, 1/3], [0, 0.2, 0.8]]).certainties.mean - 0.272| < 1e-3
    ∧ |(aggregate_prediction_from_probabilities
        [[1/3, 1/3, 1/3], [0, 0.2, 0.8]]).certainties.max - 0.545| < 1e-3
    ∧ |(aggregate_prediction_from_probabilities
        [[1/3, 1/3, 1/3], [0, 0.2, 0.8]]).certainties.aggregate - 0.545| < 1e-3
    ∧ |(aggregate_prediction_from_probabilities
        [[1/3, 1/3, 1/3], [0, 0.2, 0.8]]).certainties.weighted - 0.545| < 1e-3 := by
  have hcb := golden_cert_bounds
  set c := get_certainty [0, 0.2, 0.8] with hcdef
  have hcpos : 0 < c := by linarith [hcb.1]
  have hcne : c ≠ 0 := ne_of_gt hcpos
  have hn1 : normalizeVec [1/3, 1/3, 1/3] = [1/3, 1/3, 1/3] :=
    normalizeVec_of_sum_one _ (by norm_num)
  have hn2 : normalizeVec [0, 0.2, 0.8] = [0, 0.2, 0.8] :=
    normalizeVec_of_sum_one _ (by norm_num)
  have hres : aggregate_prediction_from_probabilities
      [[1/3, 1/3, 1/3], [0, 0.2, 0.8]]
      = ⟨2, ⟨c / 2, c, c, c⟩, [0, 0.2, 0.8]⟩ := by
    unfold aggregate_prediction_from_probabilities
    simp only [List.map_cons, List.map_nil, hn1, hn2, get_certainty_uniform3,
      ← hcdef, List.head?_cons, Option.getD_some, List.length_cons,
      List.length_nil, List.sum_cons, List.sum_nil, add_zero, zero_add]
    rw [if_neg hcne, wca_golden c hcne, hn2, if_neg hcne, argmax_golden]
    have hmax : listMaxD (0 : ℝ) [0, c] = c := by
      show max 0 c = c
      exact max_eq_right hcpos.le
    rw [hmax, ← hcdef]
    have h2 : ((1 + 1 : ℕ) : ℝ) = 2 := by norm_num
    have hweighted : (0 * 0 + c * c) / c = c := by
      field_simp
    rw [h2, hweighted]
  rw [hres]
  have hc1 := hcb.1
  have hc2 := hcb.2
  refine ⟨rfl, ?_, ?_, ?_, ?_, ?_, ?_, ?_⟩ <;>
    · simp only [List.getD_cons_zero, List.getD_cons_succ]
      rw [abs_lt]
      constructor <;> norm_num <;> linarith

/-- Modelled from the spec (section 4.3): "`PRODUCT`: element-wise product
across the `N` normalized vectors, then re-normalize to sum to 1."  Stated
from the spec's words, independently of the Aggregator, for comparison. -/
noncomputable def spec_product_combination (probabilities : List (List ℝ)) :
    List ℝ :=
  normalizeVec (columnProduct (probabilities.head?.getD []).length
    (probabilities.map normalizeVec))

theorem columnProduct_golden :
    columnProduct 3 [[0.25, 0.25, 0.5], [0.1, 0.2, 0.7], [0.4, 0.3, 0.3]]
      = [0.01, 0.015, 0.105] := by
  unfold columnProduct
  rw [show List.range 3 = [0, 1, 2] from rfl]
  simp only [List.map_cons, List.map_nil, List.getD_cons_zero,
    List.getD_cons_succ, List.prod_cons, List.prod_nil]
  norm_num

theorem normalizeVec_product_golden :
    normalizeVec [0.01, 0.015, 0.105] = [1/13, 3/26, 21/26] := by
  unfold normalizeVec
  rw [show ([0.01, 0.015, 0.105] : List ℝ).sum = 0.13 by norm_num,
    if_pos (by norm_num : (0 : ℝ) < 0.13)]
  norm_num

/-- C3: under the `PRODUCT` method the Aggregator's output is the element-wise
product of the normalized input vectors re-normalized to sum 1, and on
`[[0.25,0.25,0.5],[0.1,0.2,0.7],[0.4,0.3,0.3]]` it is within `1e-3` of
`[0.077, 0.115, 0.807]`. -/
theorem C3_product_method :
    (∀ probabilities : List (List ℝ),
      (aggregate_prediction_from_probabilities probabilities
        AggMethod.product).probabilities = spec_product_combination probabilities)
    ∧ |(aggregate_prediction_from_probabilities
        [[0.25, 0.25, 0.5], [0.1, 0.2, 0.7], [0.4, 0.3, 0.3]]
        AggMethod.product).probabilities.getD 0 0 - 0.077| < 1e-3
    ∧ |(aggregate_prediction_from_probabilities
        [[0.25, 0.25, 0.5], [0.1, 0.2, 0.7], [0.4, 0.3, 0.3]]
        AggMethod.product).probabilities.getD 1 0 - 0.115| < 1e-3
    ∧ |(aggregate_prediction_from_probabilities
        [[0.25, 0.25, 0.5], [0.1, 0.2, 0.7], [0.4, 0.3, 0.3]]
        AggMethod.product).probabilities.getD 2 0 - 0.807| < 1e-3 := by
  have hn1 : normalizeVec [0.25, 0.25, 0.5] = [0.25, 0.25, 0.5] :=
    normalizeVec_of_sum_one _ (by norm_num)
  have hn2 : normalizeVec [0.1, 0.2, 0.7] = [0.1, 0.2, 0.7] :=
    normalizeVec_of_sum_one _ (by norm_num)
  have hn3 : normalizeVec [0.4, 0.3, 0.3] = [0.4, 0.3, 0.3] :=
    normalizeVec_of_sum_one _ (by norm_num)
  have hprob : (aggregate_prediction_from_probabilities
      [[0.25, 0.25, 0.5], [0.1, 0.2, 0.7], [0.4, 0.3, 0.3]]
      AggMethod.product).probabilities = [1/13, 3/26, 21/26] := by
    unfold aggregate_prediction_from_probabilities
    simp only [List.map_cons, List.map_nil, hn1, hn2, hn3, List.head?_cons,
      Option.getD_some, List.length_cons, List.length_nil]
    rw [columnProduct_golden, normalizeVec_product_golden]
  refine ⟨fun probabilities => rfl, ?_, ?_, ?_⟩ <;>
    · rw [hprob]
      simp only [List.getD_cons_zero, List.getD_cons_succ]
      rw [abs_lt]
      constructor <;> norm_num

/-!
## C2: boundary values of the four certainty metrics

The uniform distribution over `C` classes and the one-hot vector for class
`k < C`, and the helper lemmas to evaluate the Aggregator on `N` identical
copies of a vector.
-/

/-- The uniform distribution over `C` classes. -/
noncomputable def uniformVec (C : ℕ) : List ℝ :=
  List.replicate C ((1 : ℝ) / C)

/-- The one-hot vector over `C` classes with the 1 at index `k`. -/
def oneHotVec (C k : ℕ) : List ℝ :=
  List.replicate k 0 ++ 1 :: List.replicate (C - k - 1) 0

theorem sum_replicate_real (N : ℕ) (x : ℝ) :
    (List.replicate N x).sum = N * x := by
  induction N with
  | zero => simp
  | succ m ih => rw [List.replicate_succ, List.sum_cons, ih]; push_cast; ring

theorem uniformVec_sum (C : ℕ) (hC : 0 < C) : (uniformVec C).sum = 1 := by
  unfold uniformVec
  rw [sum_replicate_real]
  have : (C : ℝ) ≠ 0 := Nat.cast_ne_zero.mpr (Nat.pos_iff_ne_zero.mp hC)
  field_simp

theorem uniformVec_length (C : ℕ) : (uniformVec C).length = C := by
  unfold uniformVec
  exact List.length_replicate C _

theorem oneHotVec_sum (C k : ℕ) : (oneHotVec C k).sum = 1 := by
  unfold oneHotVec
  rw [List.sum_append, List.sum_cons, sum_replicate_real, sum_replicate_real]
  ring

theorem oneHotVec_length (C k : ℕ) (hk : k < C) : (oneHotVec C k).length = C := by
  unfold oneHotVec
  rw [List.length_append, List.length_cons, List.length_replicate,
    List.length_replicate]
  omega

theorem get_certainty_uniform (C : ℕ) (hC : 2 ≤ C) :
    get_certainty (uniformVec C) = 0 := by
  have hC0 : 0 < C := by omega
  have hsum := uniformVec_sum C hC0
  unfold get_certainty
  rw [hsum, if_pos one_pos]
  have hmap : ((uniformVec C).map (· / 1)).map (fun p => p * Real.log p)
      = List.replicate C (((1 : ℝ) / C) * Real.log ((1 : ℝ) / C)) := by
    unfold uniformVec
    rw [List.map_replicate, List.map_replicate, div_one]
  rw [hmap, sum_replicate_real, uniformVec_length]
  have hCne : (C : ℝ) ≠ 0 := Nat.cast_ne_zero.mpr (by omega)
  have hlog : Real.log ((1 : ℝ) / C) = -Real.log C := by
    rw [one_div, Real.log_inv]
  rw [hlog]
  have hlogC : Real.log C ≠ 0 := by
    have h1 : (1 : ℝ) < C := by
      have : (2 : ℝ) ≤ C := by exact_mod_cast hC
      linarith
    exact ne_of_gt (Real.log_pos h1)
  field_simp

theorem get_certainty_oneHot (C k : ℕ) :
    get_certainty (oneHotVec C k) = 1 := by
  have hsum := oneHotVec_sum C k
  unfold get_certainty
  rw [hsum, if_pos one_pos]
  have hmap : ((oneHotVec C k).map (· / 1)).map (fun p => p * Real.log p)
      = List.replicate k 0 ++ (0 : ℝ) :: List.replicate (C - k - 1) 0 := by
    unfold oneHotVec
    rw [List.map_append, List.map_append, List.map_cons, List.map_cons,
      List.map_replicate, List.map_replicate, List.map_replicate,
      List.map_replicate]
    norm_num
  rw [hmap, List.sum_append, List.sum_cons, sum_replicate_real,
    sum_replicate_real]
  norm_num

theorem map_range_getD {α : Type} (u : List α) (d : α) :
    (List.range u.length).map (fun j => u.getD j d) = u := by
  induction u with
  | nil => simp
  | cons x xs ih =>
      rw [List.length_cons, List.range_succ_eq_map, List.map_cons,
        List.map_map]
      have hcomp : ((fun j => (x :: xs).getD j d) ∘ Nat.succ)
          = fun j => xs.getD j d := by
        funext j
        simp [List.getD_cons_succ]
      rw [List.getD_cons_zero]
      rw [show (List.map ((fun j => (x :: xs).getD j d) ∘ Nat.succ)
        (List.range xs.length)) = List.map (fun j => xs.getD j d)
          (List.range xs.length) from by rw [hcomp]]
      rw [ih]

theorem zipWith_mul_replicate (N : ℕ) (c : ℝ) (v : List ℝ) (g : List ℝ → ℝ) :
    List.zipWith (fun wi row => wi * g row) (List.replicate N c)
      (List.replicate N v) = List.replicate N (c * g v) := by
  induction N with
  | zero => simp
  | succ m ih =>
      rw [List.replicate_succ, List.replicate_succ, List.replicate_succ,
        List.zipWith_cons_cons, ih]

theorem wca_replicate (v : List ℝ) (N : ℕ) (c : ℝ) (h : (N : ℝ) * c ≠ 0) :
    weightedColumnAverage v.length (List.replicate N v) (List.replicate N c)
      = v := by
  unfold weightedColumnAverage
  have hz : ∀ j : ℕ, (List.zipWith (fun wi row => wi * row.getD j 0)
      (List.replicate N c) (List.replicate N v)).sum
        = (N : ℝ) * (c * v.getD j 0) := by
    intro j
    rw [zipWith_mul_replicate N c v (fun row => row.getD j 0),
      sum_replicate_real]
  have hw : (List.replicate N c).sum = (N : ℝ) * c := sum_replicate_real N c
  have hcols : (fun j => ((List.zipWith (fun wi row => wi * row.getD j 0)
      (List.replicate N c) (List.replicate N v)).sum)
        / (List.replicate N c).sum) = fun j => v.getD j 0 := by
    funext j
    rw [hz j, hw, ← mul_assoc]
    exact mul_div_cancel_left₀ _ h
  rw [hcols, map_range_getD]

theorem argmaxAux_no_improve {α : Type} [LinearOrder α] (l : List α)
    (bi i : ℕ) (bv : α) (h : ∀ x ∈ l, ¬ bv < x) :
    argmaxAux l bi bv i = bi := by
  induction l generalizing i with
  | nil => rfl
  | cons x xs ih =>
      simp only [argmaxAux]
      rw [if_neg (h x (List.mem_cons_self x xs))]
      exact ih (i + 1) (fun y hy => h y (List.mem_cons_of_mem x hy))

theorem argmaxAux_zeros (m : ℕ) (rest : List ℝ) (bi i : ℕ) :
    argmaxAux (List.replicate m (0 : ℝ) ++ rest) bi 0 i
      = argmaxAux rest bi 0 (i + m) := by
  induction m generalizing i with
  | zero => simp
  | succ n ih =>
      rw [List.replicate_succ, List.cons_append]
      simp only [argmaxAux]
      rw [if_neg (lt_irrefl (0 : ℝ)), ih (i + 1)]
      congr 1
      omega

theorem argmax_oneHot (C k : ℕ) (hk : k < C) :
    argmaxList (oneHotVec C k) = k := by
  unfold oneHotVec
  cases k with
  | zero =>
      rw [List.replicate_zero, List.nil_append]
      show argmaxAux (List.replicate (C - 0 - 1) (0 : ℝ)) 0 1 1 = 0
      exact argmaxAux_no_improve _ 0 1 1 (fun x hx => by
        rw [List.eq_of_mem_replicate hx]; norm_num)
  | succ j =>
      rw [List.replicate_succ, List.cons_append]
      show argmaxAux (List.replicate j (0 : ℝ)
        ++ 1 :: List.replicate (C - (j + 1) - 1) 0) 0 0 1 = j + 1
      rw [argmaxAux_zeros]
      simp only [argmaxAux]
      rw [if_pos (by norm_num : (0 : ℝ) < 1)]
      rw [argmaxAux_no_improve _ _ _ _ (fun x hx => by
        rw [List.eq_of_mem_replicate hx]; norm_num)]
      omega

theorem foldl_max_replicate {α : Type} [LinearOrder α] (m : ℕ) (x : α) :
    (List.replicate m x).foldl max x = x := by
  induction m with
  | zero => rfl
  | succ n ih => rw [List.replicate_succ, List.foldl_cons, max_self]; exact ih

theorem listMaxD_replicate_succ {α : Type} [LinearOrder α] (d x : α) (m : ℕ) :
    listMaxD d (List.replicate (m + 1) x) = x := by
  rw [List.replicate_succ]
  show (List.replicate m x).foldl max x = x
  exact foldl_max_replicate m x

theorem argmax_uniform (C : ℕ) (hC : 0 < C) : argmaxList (uniformVec C) = 0 := by
  obtain ⟨c', rfl⟩ : ∃ c', C = c' + 1 := ⟨C - 1, by omega⟩
  unfold uniformVec
  rw [List.replicate_succ]
  show argmaxAux (List.replicate c' ((1 : ℝ) / ((c' + 1 : ℕ) : ℝ))) 0
    ((1 : ℝ) / ((c' + 1 : ℕ) : ℝ)) 1 = 0
  exact argmaxAux_no_improve _ 0 1 _ (fun x hx => by
    rw [List.eq_of_mem_replicate hx]; exact lt_irrefl _)

theorem aggregate_all_uniform (N C : ℕ) (hN : 1 ≤ N) (hC : 2 ≤ C) :
    aggregate_prediction_from_probabilities (List.replicate N (uniformVec C))
      = ⟨0, ⟨0, 0, 0, 0⟩, uniformVec C⟩ := by
  obtain ⟨m, rfl⟩ : ∃ m, N = m + 1 := ⟨N - 1, by omega⟩
  have hnu : normalizeVec (uniformVec C) = uniformVec C :=
    normalizeVec_of_sum_one _ (uniformVec_sum C (by omega))
  have hgu : get_certainty (uniformVec C) = 0 := get_certainty_uniform C hC
  have hhead : (List.replicate (m + 1) (uniformVec C)).head?.getD [] =
      uniformVec C := by
    rw [List.replicate_succ, List.head?_cons, Option.getD_some]
  have hwca : weightedColumnAverage (uniformVec C).length
      (List.replicate (m + 1) (uniformVec C)) (List.replicate (m + 1) (1 : ℝ))
        = uniformVec C := by
    refine wca_replicate _ _ _ ?_
    have : (0 : ℝ) < ((m + 1 : ℕ) : ℝ) := by positivity
    simp only [mul_one]
    linarith
  unfold aggregate_prediction_from_probabilities
  simp only [List.map_replicate, hnu, hgu, hhead, sum_replicate_real, mul_zero,
    List.length_replicate]
  simp only [if_true]
  rw [hwca, hnu, argmax_uniform C (by omega), listMaxD_replicate_succ, hgu]
  simp

theorem aggregate_all_oneHot (N C k : ℕ) (hN : 1 ≤ N) (hk : k < C) :
    aggregate_prediction_from_probabilities (List.replicate N (oneHotVec C k))
      = ⟨k, ⟨1, 1, 1, 1⟩, oneHotVec C k⟩ := by
  obtain ⟨m, rfl⟩ : ∃ m, N = m + 1 := ⟨N - 1, by omega⟩
  have hno : normalizeVec (oneHotVec C k) = oneHotVec C k :=
    normalizeVec_of_sum_one _ (oneHotVec_sum C k)
  have hgo : get_certainty (oneHotVec C k) = 1 := get_certainty_oneHot C k
  have hhead : (List.replicate (m + 1) (oneHotVec C k)).head?.getD [] =
      oneHotVec C k := by
    rw [List.replicate_succ, List.head?_cons, Option.getD_some]
  have hMne : ((m + 1 : ℕ) : ℝ) ≠ 0 := by positivity
  have hsumne : ¬ (((m + 1 : ℕ) : ℝ) * 1 = 0) := by
    simp only [mul_one]
    exact hMne
  have hwca : weightedColumnAverage (oneHotVec C k).length
      (List.replicate (m + 1) (oneHotVec C k)) (List.replicate (m + 1) (1 : ℝ))
        = oneHotVec C k := by
    refine wca_replicate _ _ _ ?_
    simp only [mul_one]
    exact hMne
  unfold aggregate_prediction_from_probabilities
  simp only [List.map_replicate, hno, hgo, hhead, sum_replicate_real,
    List.length_replicate, mul_one]
  rw [if_neg hMne, if_neg hMne]
  have hwca' : weightedColumnAverage (oneHotVec C k).length
      (List.replicate (m + 1) (oneHotVec C k)) (List.replicate (m + 1) (1 : ℝ))
        = oneHotVec C k := hwca
  rw [hwca', hno, argmax_oneHot C k hk, listMaxD_replicate_succ]
  have hdiv : ((m + 1 : ℕ) : ℝ) / ((m + 1 : ℕ) : ℝ) = 1 := div_self hMne
  simp only [one_mul, hdiv]
  rw [hgo]

/-- C2: with every input vector exactly the uniform distribution over `C ≥ 2`
classes, all four certainty metrics are 0 and the output probability vector is
itself uniform; with every input vector the one-hot vector for class `k`, the
predicted class is `k` and all four certainty metrics are 1. -/
theorem C2_certainty_boundary_values (N C k : ℕ) (hN : 1 ≤ N) (hC : 2 ≤ C)
    (hk : k < C) :
    ((aggregate_prediction_from_probabilities
        (List.replicate N (uniformVec C))).certainties.mean = 0
      ∧ (aggregate_prediction_from_probabilities
          (List.replicate N (uniformVec C))).certainties.max = 0
      ∧ (aggregate_prediction_from_probabilities
          (List.replicate N (uniformVec C))).certainties.aggregate = 0
      ∧ (aggregate_prediction_from_probabilities
          (List.replicate N (uniformVec C))).certainties.weighted = 0
      ∧ (aggregate_prediction_from_probabilities
          (List.replicate N (uniformVec C))).probabilities = uniformVec C)
    ∧ ((aggregate_prediction_from_probabilities
          (List.replicate N (oneHotVec C k))).predicted_class = k
      ∧ (aggregate_prediction_from_probabilities
          (List.replicate N (oneHotVec C k))).certainties.mean = 1
      ∧ (aggregate_prediction_from_probabilities
          (List.replicate N (oneHotVec C k))).certainties.max = 1
      ∧ (aggregate_prediction_from_probabilities
          (List.replicate N (oneHotVec C k))).certainties.aggregate = 1
      ∧ (aggregate_prediction_from_probabilities
          (List.replicate N (oneHotVec C k))).certainties.weighted = 1) := by
  rw [aggregate_all_uniform N C hN hC, aggregate_all_oneHot N C k hN hk]
  exact ⟨⟨rfl, rfl, rfl, rfl, rfl⟩, rfl, rfl, rfl, rfl, rfl⟩

/-- C2 witness: `N = 2`, `C = 3`, `k = 1`. -/
theorem C2_certainty_boundary_values_witness :
    1 ≤ 2 ∧ 2 ≤ 3 ∧ 1 < 3
    ∧ (((aggregate_prediction_from_probabilities
        (List.replicate 2 (uniformVec 3))).certainties.mean = 0
      ∧ (aggregate_prediction_from_probabilities
          (List.replicate 2 (uniformVec 3))).certainties.max = 0
      ∧ (aggregate_prediction_from_probabilities
          (List.replicate 2 (uniformVec 3))).certainties.aggregate = 0
      ∧ (aggregate_prediction_from_probabilities
          (List.replicate 2 (uniformVec 3))).certainties.weighted = 0
      ∧ (aggregate_prediction_from_probabilities
          (List.replicate 2 (uniformVec 3))).probabilities = uniformVec 3)
    ∧ ((aggregate_prediction_from_probabilities
          (List.replicate 2 (oneHotVec 3 1))).predicted_class = 1
      ∧ (aggregate_prediction_from_probabilities
          (List.replicate 2 (oneHotVec 3 1))).certainties.mean = 1
      ∧ (aggregate_prediction_from_probabilities
          (List.replicate 2 (oneHotVec 3 1))).certainties.max = 1
      ∧ (aggregate_prediction_from_probabilities
          (List.replicate 2 (oneHotVec 3 1))).certainties.aggregate = 1
      ∧ (aggregate_prediction_from_probabilities
          (List.replicate 2 (oneHotVec 3 1))).certainties.weighted = 1)) :=
  ⟨by norm_num, by norm_num, by norm_num,
    C2_certainty_boundary_values 2 3 1 (by norm_num) (by norm_num) (by norm_num)⟩

/-!
## Result Store (miq_eval.save_inference_results / load_inference_results are
not under src/)

Modelled from the spec (sections 4.5 and 6): a row-oriented table whose header
names one probability column per class plus the fixed columns `label,
mean_certainty, max_certainty, aggregate_certainty, weighted_certainty, name,
prediction`; `load` must reconstruct what `save` wrote field by field.  A cell
of the table is a number or a string; numbers are exact here (the
floating-point text round-trip of the real file format is outside a rational
model).
-/

/-- One cell of the row-oriented result table. -/
inductive Cell
  | num (q : ℚ)
  | str (s : String)
  deriving DecidableEq, Repr

/-- One persisted row: spec ResultRecord. -/
structure ResultRecord where
  probabilities : List ℚ
  label : ℤ
  certainty_mean : ℚ
  certainty_max : ℚ
  certainty_aggregate : ℚ
  certainty_weighted : ℚ
  name : String
  prediction : ℤ
  deriving DecidableEq, Repr

/-- Modelled from the spec: the header row, one probability column per class
plus the fixed columns. -/
def resultHeader (C : ℕ) : List Cell :=
  ((List.range C).map (fun i => Cell.str ("probabilities_" ++ toString i)))
    ++ [Cell.str "label", Cell.str "mean_certainty", Cell.str "max_certainty",
        Cell.str "aggregate_certainty", Cell.str "weighted_certainty",
        Cell.str "name", Cell.str "prediction"]

/-- The data row for one record, in header column order. -/
def recordToRow (r : ResultRecord) : List Cell :=
  r.probabilities.map Cell.num
    ++ [Cell.num (r.label : ℚ), Cell.num r.certainty_mean,
        Cell.num r.certainty_max, Cell.num r.certainty_aggregate,
        Cell.num r.certainty_weighted, Cell.str r.name,
        Cell.num (r.prediction : ℚ)]

/-- Modelled from the spec: `miq_eval.save_inference_results`, not under src/
— "writes one row per record containing the full ProbabilityVector, label, all
four certainty metrics, identifier, and predicted class" after a header row,
with as many probability columns as classes observed. -/
def save_inference_results (records : List ResultRecord) : List (List Cell) :=
  let C := ((records.head?).map (fun r => r.probabilities.length)).getD 0
  resultHeader C :: records.map recordToRow

/-- Numeric payload of a cell, if any. -/
def cellNum? : Cell → Option ℚ
  | Cell.num q => some q
  | Cell.str _ => none

/-- Parse one data row back into a record, given the class count `C`. -/
def parseRow (C : ℕ) (row : List Cell) : Option ResultRecord :=
  if row.length = C + 7 then
    match (row.take C).mapM cellNum?, row.drop C with
    | some probs, [Cell.num lab, Cell.num m, Cell.num mx, Cell.num ag,
                   Cell.num w, Cell.str nm, Cell.num pred] =>
      if lab.den = 1 ∧ pred.den = 1 then
        some ⟨probs, lab.num, m, mx, ag, w, nm, pred.num⟩
      else none
    | _, _ => none
  else none

/-- Modelled from the spec: `miq_eval.load_inference_results`, not under src/
— reads the header to recover the class count, then reconstructs one record
per data row; a missing or malformed table yields no result (the spec's
`NotFoundError`/`ParseError`). -/
def load_inference_results (rows : List (List Cell)) :
    Option (List ResultRecord) :=
  match rows with
  | [] => none
  | headerRow :: dataRows =>
    if 7 ≤ headerRow.length then
      dataRows.mapM (parseRow (headerRow.length - 7))
    else none

theorem resultHeader_length (C : ℕ) : (resultHeader C).length = C + 7 := by
  simp [resultHeader]

theorem mapM_cellNum_map_num (l : List ℚ) :
    (l.map Cell.num).mapM cellNum? = some l := by
  induction l with
  | nil => rfl
  | cons x xs ih =>
      rw [List.map_cons, List.mapM_cons, ih]
      rfl

theorem parseRow_recordToRow (r : ResultRecord) (C : ℕ)
    (h : r.probabilities.length = C) :
    parseRow C (recordToRow r) = some r := by
  unfold parseRow recordToRow
  have hlenp : (r.probabilities.map Cell.num).length = C := by
    rw [List.length_map, h]
  have hlen : (r.probabilities.map Cell.num
      ++ [Cell.num (r.label : ℚ), Cell.num r.certainty_mean,
          Cell.num r.certainty_max, Cell.num r.certainty_aggregate,
          Cell.num r.certainty_weighted, Cell.str r.name,
          Cell.num (r.prediction : ℚ)]).length = C + 7 := by
    rw [List.length_append, hlenp]
    rfl
  rw [if_pos hlen]
  rw [List.take_left' hlenp, List.drop_left' hlenp, mapM_cellNum_map_num]
  have hden : ((r.label : ℚ).den = 1 ∧ ((r.prediction : ℚ)).den = 1) := by
    constructor <;> exact Rat.den_intCast _
  show (if (r.label : ℚ).den = 1 ∧ ((r.prediction : ℚ)).den = 1 then
      some (⟨r.probabilities, (r.label : ℚ).num, r.certainty_mean,
        r.certainty_max, r.certainty_aggregate, r.certainty_weighted, r.name,
        ((r.prediction : ℚ)).num⟩ : ResultRecord)
    else none) = some r
  rw [if_pos hden]
  have hnum1 : (r.label : ℚ).num = r.label := Rat.num_intCast _
  have hnum2 : ((r.prediction : ℚ)).num = r.prediction := Rat.num_intCast _
  rw [hnum1, hnum2]

theorem mapM_parseRow (C : ℕ) (records : List ResultRecord)
    (hall : ∀ r ∈ records, r.probabilities.length = C) :
    (records.map recordToRow).mapM (parseRow C) = some records := by
  induction records with
  | nil => rfl
  | cons r rs ih =>
      rw [List.map_cons, List.mapM_cons,
        parseRow_recordToRow r C (hall r (List.mem_cons_self r rs)),
        ih (fun x hx => hall x (List.mem_cons_of_mem r hx))]
      rfl

/-- C6: loading what was saved returns the records unchanged field by field
(exactly, in this rational model of the row format). -/
theorem C6_result_store_roundtrip (records : List ResultRecord) (C : ℕ)
    (hC : ((records.head?).map (fun r => r.probabilities.length)).getD 0 = C)
    (hall : ∀ r ∈ records, r.probabilities.length = C) :
    load_inference_results (save_inference_results records) = some records := by
  unfold save_inference_results load_inference_results
  rw [hC]
  show (if 7 ≤ (resultHeader C).length then
      List.mapM (parseRow ((resultHeader C).length - 7))
        (List.map recordToRow records)
    else none) = some records
  rw [if_pos (by rw [resultHeader_length]; omega : 7 ≤ (resultHeader C).length)]
  rw [show (resultHeader C).length - 7 = C from by rw [resultHeader_length]; omega]
  exact mapM_parseRow C records hall

/-- C6 witness: a concrete batch of two records with three classes, mirroring
the values of the src test. -/
theorem C6_result_store_roundtrip_witness :
    ((([⟨[1, 1, 3], 0, 1/3, 0, 0.9, 1, "orig_name", 0⟩,
        ⟨[1, 1, 1], 1, 1/3, 0, 0.9, 1, "orig_name", 1⟩] :
        List ResultRecord).head?).map (fun r => r.probabilities.length)).getD 0
        = 3
    ∧ (∀ r ∈ ([⟨[1, 1, 3], 0, 1/3, 0, 0.9, 1, "orig_name", 0⟩,
        ⟨[1, 1, 1], 1, 1/3, 0, 0.9, 1, "orig_name", 1⟩] :
        List ResultRecord), r.probabilities.length = 3)
    ∧ load_inference_results (save_inference_results
        [⟨[1, 1, 3], 0, 1/3, 0, 0.9, 1, "orig_name", 0⟩,
         ⟨[1, 1, 1], 1, 1/3, 0, 0.9, 1, "orig_name", 1⟩])
      = some [⟨[1, 1, 3], 0, 1/3, 0, 0.9, 1, "orig_name", 0⟩,
              ⟨[1, 1, 1], 1, 1/3, 0, 0.9, 1, "orig_name", 1⟩] :=
  ⟨rfl, by decide,
    C6_result_store_roundtrip
      [⟨[1, 1, 3], 0, 1/3, 0, 0.9, 1, "orig_name", 0⟩,
       ⟨[1, 1, 1], 1, 1/3, 0, 0.9, 1, "orig_name", 1⟩] 3 rfl (by decide)⟩

/-!
## Annotator (miq_eval._get_class_rgb / _add_rgb_annotation / get_rgb_image
are not under src/)
-/

/-- Border thickness in pixels (miq_eval.BORDER_SIZE). -/
def BORDER_SIZE : ℕ := 8

/-- Modelled from the spec (section 4.4): the standard hue-sector HSV-to-RGB
conversion (colorsys.hsv_to_rgb), over exact rationals. -/
def hsvToRgb (h s v : ℚ) : ℚ × ℚ × ℚ :=
  let i : ℤ := ⌊h * 6⌋
  let f : ℚ := h * 6 - i
  let p := v * (1 - s)
  let q := v * (1 - s * f)
  let t := v * (1 - s * (1 - f))
  match (i % 6).toNat with
  | 0 => (v, t, p)
  | 1 => (q, v, p)
  | 2 => (p, v, t)
  | 3 => (p, q, v)
  | 4 => (t, p, v)
  | _ => (v, p, q)

/-- Modelled from the spec: `miq_eval._get_class_rgb`, not under src/ — "it
walks evenly spaced points around the hue circle at maximum saturation/value,
indexed by class number"; class `cls` of `num_classes` gets hue
`cls / num_classes`. -/
def get_class_rgb (num_classes cls : ℕ) : ℚ × ℚ × ℚ :=
  hsvToRgb ((cls : ℚ) / (num_classes : ℚ)) 1 1

/-- Modelled from the spec and pinned by the src test `testAddRgbAnnotation`:
`miq_eval._add_rgb_annotation`, not under src/ — writes the true-label color
on the top `BORDER_SIZE` rows and the predicted-class color on the bottom
`BORDER_SIZE` rows, each scaled by `maxValue`; all other pixels unchanged. -/
def add_rgb_border (img : RgbImage) (predicted actual : ℚ × ℚ × ℚ)
    (maxValue : ℚ) : RgbImage :=
  ⟨img.H, img.W, fun r c =>
    if r < BORDER_SIZE then
      (actual.1 * maxValue, actual.2.1 * maxValue, actual.2.2 * maxValue)
    else if img.H - BORDER_SIZE ≤ r ∧ r < img.H then
      (predicted.1 * maxValue, predicted.2.1 * maxValue,
        predicted.2.2 * maxValue)
    else img.pix r c⟩

/-- C8: annotating a uniform single-channel patch with `prediction = 0`,
`label = 1` places the label color on the top `BORDER_SIZE` rows and the
predicted-class color (class 0, i.e. the hue-0 color `(1, 0, 0)`) on the
opposite (bottom) `BORDER_SIZE` rows, leaving the rows in between unchanged —
each border exactly `BORDER_SIZE` pixels thick. -/
theorem C8_border_annotation (H W : ℕ) (g maxv : ℚ)
    (hH : 2 * BORDER_SIZE ≤ H) :
    get_class_rgb 11 0 = (1, 0, 0)
    ∧ (∀ r, r < BORDER_SIZE → ∀ c : ℕ,
        (add_rgb_border ⟨H, W, fun _ _ => (g, g, g)⟩ (get_class_rgb 11 0)
            (get_class_rgb 11 1) maxv).pix r c
          = ((get_class_rgb 11 1).1 * maxv, (get_class_rgb 11 1).2.1 * maxv,
             (get_class_rgb 11 1).2.2 * maxv))
    ∧ (∀ r, H - BORDER_SIZE ≤ r → r < H → ∀ c : ℕ,
        (add_rgb_border ⟨H, W, fun _ _ => (g, g, g)⟩ (get_class_rgb 11 0)
            (get_class_rgb 11 1) maxv).pix r c = (maxv, 0, 0))
    ∧ (∀ r, BORDER_SIZE ≤ r → r < H - BORDER_SIZE → ∀ c : ℕ,
        (add_rgb_border ⟨H, W, fun _ _ => (g, g, g)⟩ (get_class_rgb 11 0)
            (get_class_rgb 11 1) maxv).pix r c = (g, g, g)) := by
  have hrgb0 : get_class_rgb 11 0 = (1, 0, 0) := by
    unfold get_class_rgb hsvToRgb
    norm_num
  refine ⟨hrgb0, ?_, ?_, ?_⟩
  · intro r hr c
    simp only [add_rgb_border]
    rw [if_pos hr]
  · intro r hr1 hr2 c
    simp only [add_rgb_border]
    rw [if_neg (by omega), if_pos ⟨hr1, hr2⟩, hrgb0]
    norm_num
  · intro r hr1 hr2 c
    simp only [add_rgb_border]
    rw [if_neg (by omega), if_neg (by omega)]

/-- C8 witness: a 20 × 20 patch (grid value 0) with `maxv = 1`. -/
theorem C8_border_annotation_witness :
    2 * BORDER_SIZE ≤ 20
    ∧ (get_class_rgb 11 0 = (1, 0, 0)
    ∧ (∀ r, r < BORDER_SIZE → ∀ c : ℕ,
        (add_rgb_border ⟨20, 20, fun _ _ => ((0 : ℚ), (0 : ℚ), (0 : ℚ))⟩
            (get_class_rgb 11 0) (get_class_rgb 11 1) 1).pix r c
          = ((get_class_rgb 11 1).1 * 1, (get_class_rgb 11 1).2.1 * 1,
             (get_class_rgb 11 1).2.2 * 1))
    ∧ (∀ r, 20 - BORDER_SIZE ≤ r → r < 20 → ∀ c : ℕ,
        (add_rgb_border ⟨20, 20, fun _ _ => ((0 : ℚ), (0 : ℚ), (0 : ℚ))⟩
            (get_class_rgb 11 0) (get_class_rgb 11 1) 1).pix r c = (1, 0, 0))
    ∧ (∀ r, BORDER_SIZE ≤ r → r < 20 - BORDER_SIZE → ∀ c : ℕ,
        (add_rgb_border ⟨20, 20, fun _ _ => ((0 : ℚ), (0 : ℚ), (0 : ℚ))⟩
            (get_class_rgb 11 0) (get_class_rgb 11 1) 1).pix r c
          = (0, 0, 0))) :=
  ⟨by decide, C8_border_annotation 20 20 0 1 (by decide)⟩

/-- RGB counterpart of `patches_to_image`, same spec model (section 4.4) at
three channels. -/
def patches_to_image_rgb (patches : List RgbImage) (shape : ℕ × ℕ) :
    Except MiqError RgbImage :=
  let p := ((patches.head?).map (fun t => t.H)).getD 0
  if p = 0 then .error .dimensionError
  else if shape.1 % p ≠ 0 ∨ shape.2 % p ≠ 0 then .error .dimensionError
  else if patches.length ≠ (shape.1 / p) * (shape.2 / p) then
    .error .dimensionError
  else .ok ⟨shape.1, shape.2, fun r c =>
    ((patches.getD ((r / p) * (shape.2 / p) + c / p)
      ⟨p, p, fun _ _ => (0, 0, 0)⟩).pix) (r % p) (c % p)⟩

/-- Scale an RGB triple. -/
def scaleRgb (a : ℚ) (col : ℚ × ℚ × ℚ) : ℚ × ℚ × ℚ :=
  (a * col.1, a * col.2.1, a * col.2.2)

/-- Modelled from the spec: `miq_eval.get_rgb_image`, not under src/ —
"builds a full diagnostic RGB image by rescaling raw values into `[0, 255]`
(guarding divide-by-zero when the maximum observed value is 0), annotating
every patch with its prediction/label colors, and reconstructing them into the
original grid layout."  The exact rescale target is underdetermined by the
spec; the guarded division by the maximum observed probability value is
modelled explicitly (the guard yields scale 0, i.e. the rescale is skipped). -/
noncomputable def get_rgb_image (max_value : ℚ) (patches : List Image)
    (probabilities : List (List ℚ)) (labels : List ℕ) (shape : ℕ × ℕ) :
    Except MiqError RgbImage :=
  let num_classes := (probabilities.head?.getD []).length
  let maxObserved := listMaxD 0 (probabilities.map (listMaxD 0))
  let annotated := (List.range patches.length).map (fun i =>
    let patch := patches.getD i ⟨0, 0, fun _ _ => 0⟩
    let probs := probabilities.getD i []
    let prediction := argmaxList probs
    let certScale : ℚ := if maxObserved = 0 then 0
                         else probs.getD prediction 0 / maxObserved
    add_rgb_border ⟨patch.H, patch.W, fun r c =>
        (patch.pix r c, patch.pix r c, patch.pix r c)⟩
      (scaleRgb certScale (get_class_rgb num_classes prediction))
      (scaleRgb certScale (get_class_rgb num_classes (labels.getD i 0)))
      max_value)
  patches_to_image_rgb annotated shape

theorem head?_map_range {α : Type} (n : ℕ) (f : ℕ → α) (hn : 0 < n) :
    ((List.range n).map f).head? = some (f 0) := by
  obtain ⟨m, rfl⟩ : ∃ m, n = m + 1 := ⟨n - 1, by omega⟩
  rw [List.range_succ_eq_map, List.map_cons, List.head?_cons]

/-- C9: on a consistent patch grid for shape `(H, W)`, `get_rgb_image` with
all-zero probability vectors succeeds (the zero-maximum rescale is guarded, no
division error is possible) and returns a three-channel image of shape
`(H, W)`. -/
theorem C9_get_rgb_image_zero_probabilities (H W p N C : ℕ)
    (patches : List Image) (labels : List ℕ) (maxv : ℚ)
    (hp : 0 < p) (hH : p ∣ H) (hW : p ∣ W) (hH0 : 0 < H) (hW0 : 0 < W)
    (hNlen : patches.length = N) (hNp : ∀ t ∈ patches, t.H = p)
    (hN : N = (H / p) * (W / p)) :
    ∃ img, get_rgb_image maxv patches (List.replicate N (List.replicate C 0))
        labels (H, W) = .ok img ∧ img.H = H ∧ img.W = W := by
  have hm : 0 < H / p := Nat.div_pos (Nat.le_of_dvd hH0 hH) hp
  have hn : 0 < W / p := Nat.div_pos (Nat.le_of_dvd hW0 hW) hp
  have hNpos : 0 < N := by rw [hN]; exact Nat.mul_pos hm hn
  have hlenpos : 0 < patches.length := by omega
  have hmodH : H % p = 0 := by
    obtain ⟨k, hk⟩ := hH; rw [hk]; exact Nat.mul_mod_right p k
  have hmodW : W % p = 0 := by
    obtain ⟨k, hk⟩ := hW; rw [hk]; exact Nat.mul_mod_right p k
  have hmem : patches.getD 0 ⟨0, 0, fun _ _ => 0⟩ ∈ patches := by
    rw [List.getD_eq_getElem?_getD, List.getElem?_eq_getElem hlenpos,
      Option.getD_some]
    exact List.getElem_mem hlenpos
  have hheadH : (patches.getD 0 ⟨0, 0, fun _ _ => 0⟩).H = p :=
    hNp _ hmem
  unfold get_rgb_image patches_to_image_rgb
  dsimp only
  rw [head?_map_range patches.length _ hlenpos]
  simp only [Option.map_some', Option.getD_some, List.length_map,
    List.length_range]
  rw [show (add_rgb_border
      ⟨(patches.getD 0 ⟨0, 0, fun _ _ => 0⟩).H,
       (patches.getD 0 ⟨0, 0, fun _ _ => 0⟩).W, fun r c =>
        ((patches.getD 0 ⟨0, 0, fun _ _ => 0⟩).pix r c,
         (patches.getD 0 ⟨0, 0, fun _ _ => 0⟩).pix r c,
         (patches.getD 0 ⟨0, 0, fun _ _ => 0⟩).pix r c)⟩ _ _ maxv).H
      = p from hheadH]
  rw [if_neg (by omega : ¬ p = 0),
    if_neg (by simp [hmodH, hmodW] : ¬ (H % p ≠ 0 ∨ W % p ≠ 0)),
    if_neg (by rw [hNlen, hN]; exact fun h => h rfl :
      ¬ (patches.length ≠ (H / p) * (W / p)))]
  exact ⟨_, rfl, rfl, rfl⟩

/-- C9 witness: a 4 × 2 grid of 2 × 2 patches, two classes, zero
probabilities. -/
theorem C9_get_rgb_image_zero_probabilities_witness :
    0 < 2 ∧ (2 ∣ 4) ∧ (2 ∣ 2) ∧ 0 < 4 ∧ 0 < 2
    ∧ ([(⟨2, 2, fun r c => (r + c : ℚ)⟩ : Image),
        ⟨2, 2, fun r c => (r * c : ℚ)⟩] : List Image).length = 2
    ∧ (∀ t ∈ ([(⟨2, 2, fun r c => (r + c : ℚ)⟩ : Image),
        ⟨2, 2, fun r c => (r * c : ℚ)⟩] : List Image), t.H = 2)
    ∧ 2 = (4 / 2) * (2 / 2)
    ∧ ∃ img, get_rgb_image 1
        [(⟨2, 2, fun r c => (r + c : ℚ)⟩ : Image),
         ⟨2, 2, fun r c => (r * c : ℚ)⟩]
        (List.replicate 2 (List.replicate 2 0)) [1, 1] (4, 2) = .ok img
      ∧ img.H = 4 ∧ img.W = 2 :=
  ⟨by norm_num, by norm_num, by norm_num, by norm_num, by norm_num, rfl,
    by simp, by norm_num,
    C9_get_rgb_image_zero_probabilities 4 2 2 2 2
      [⟨2, 2, fun r c => (r + c : ℚ)⟩, ⟨2, 2, fun r c => (r * c : ℚ)⟩]
      [1, 1] 1 (by norm_num) (by norm_num) (by norm_num) (by norm_num)
      (by norm_num) rfl (by simp) (by norm_num)⟩

end Miq
